import Mathlib

/-
Shallow embedding of the rank-based statistical test suite
(kruskal-wallis.cc, mann-whit.cc, wilcoxon-sign.cc — J. Knowles, 2005).

Modelling conventions:
* C `double` data values and ranks are modelled as exact rationals (ℚ);
  tie detection in the source is exact floating-point equality, which maps
  to rational equality.  Quantities that pass through `sqrt` or the
  dcdflib CDF routines live in ℝ; the CDFs themselves (`mychi`, `myt`,
  `cdfnor`) are out of scope and appear as abstract function parameters.
* `qsort` is modelled by `List.insertionSort` (a sort; the statistics are
  insensitive to which sorting algorithm produced the order).
* The `while` loops are modelled with explicit fuel equal to the loop
  bound, so every definition reduces in the kernel.
* In `assign_ranks` the C code reads `d[i+1]` one past the end at the last
  element, and the do-while reads one past a run that ends at the last
  index; in both situations the loop bound `i+count < N-1` (checked right
  after) makes the read irrelevant unless the garbage happens to compare
  equal.  The embedding treats an out-of-range read as a non-match, the
  behaviour of the program on every input where the byte past the array
  does not bit-compare equal to the last value.
-/

/-- Length of the leading run of elements equal to `v`: the number of extra
tied observations (`count` in the C code) that the `assign_ranks` do-while
loop walks over after the run's first element. -/
def countRun (v : ℚ) : List ℚ → ℕ
  | [] => 0
  | x :: xs => if x = v then countRun v xs + 1 else 0

/-- Fuel-indexed model of the `while(i<N)` loop of `assign_ranks` (the same
routine appears verbatim in all three tools; in `wilcoxon-sign.cc` it runs on
`myabs(diff)` keys, which the caller passes in as the key list).  Given the
ascending key list still to be processed and the current natural rank
`crank`, it returns the rank list and the accumulated `total_ties`.
A maximal run of `c+1` equal keys gets the averaged rank
`totalrank/(c+1)` with `totalrank = Σ_{m≤c} (crank+m)`; the C code's
no-tie branch (`d[i].rank = crank`) is the `c = 0` instance of the same
formula.  Fuel bounds the number of loop iterations; one unit is spent per
processed element, so `fuel = N` always suffices. -/
def assignRanksLoop : ℕ → List ℚ → ℕ → List ℚ × ℕ
  | 0, _, _ => ([], 0)
  | _ + 1, [], _ => ([], 0)
  | fuel + 1, x :: xs, crank =>
    let c := countRun x xs
    let totalrank : ℕ := ∑ m ∈ Finset.range (c + 1), (crank + m)
    let rest := assignRanksLoop fuel (xs.drop c) (crank + c + 1)
    (List.replicate (c + 1) ((totalrank : ℚ) / (c + 1)) ++ rest.1, rest.2 + c)

/-- Model of `assign_ranks(d, N)`: ranks the whole key list starting at
natural rank 1... with an explicit starting rank `crank` so that the
loop invariant can be stated; the program calls it with `crank = 1`. -/
def assign_ranks (l : List ℚ) (crank : ℕ) : List ℚ × ℕ :=
  assignRanksLoop l.length l crank

theorem countRun_le (v : ℚ) (xs : List ℚ) : countRun v xs ≤ xs.length := by
  induction xs with
  | nil => simp [countRun]
  | cons y ys ih =>
    by_cases h : y = v
    · simp only [countRun, if_pos h, List.length_cons]
      omega
    · simp [countRun, h]

theorem assignRanksLoop_fuel (fuel fuel' : ℕ) (l : List ℚ) (crank : ℕ)
    (h : l.length ≤ fuel) (h' : l.length ≤ fuel') :
    assignRanksLoop fuel l crank = assignRanksLoop fuel' l crank := by
  induction fuel generalizing fuel' l crank with
  | zero =>
    have : l = [] := by
      cases l with
      | nil => rfl
      | cons x xs => simp at h
    subst this
    cases fuel' <;> rfl
  | succ n ih =>
    cases l with
    | nil => cases fuel' <;> rfl
    | cons x xs =>
      cases fuel' with
      | zero => simp at h'
      | succ n' =>
        simp only [assignRanksLoop]
        have hc := countRun_le x xs
        have hd : (xs.drop (countRun x xs)).length ≤ n := by
          simp only [List.length_drop]
          simp only [List.length_cons] at h
          omega
        have hd' : (xs.drop (countRun x xs)).length ≤ n' := by
          simp only [List.length_drop]
          simp only [List.length_cons] at h'
          omega
        rw [ih n' (xs.drop (countRun x xs)) (crank + countRun x xs + 1) hd hd']

theorem assign_ranks_nil (crank : ℕ) : assign_ranks [] crank = ([], 0) := rfl

/-- One unfolding step of `assign_ranks` on a nonempty list, with the
recursive call re-expressed through `assign_ranks` itself. -/
theorem assign_ranks_cons (x : ℚ) (xs : List ℚ) (crank : ℕ) :
    assign_ranks (x :: xs) crank
      = (List.replicate (countRun x xs + 1)
            (((∑ m ∈ Finset.range (countRun x xs + 1), (crank + m) : ℕ) : ℚ)
              / (countRun x xs + 1))
          ++ (assign_ranks (xs.drop (countRun x xs)) (crank + countRun x xs + 1)).1,
         (assign_ranks (xs.drop (countRun x xs)) (crank + countRun x xs + 1)).2
           + countRun x xs) := by
  have hc := countRun_le x xs
  show assignRanksLoop (xs.length + 1) (x :: xs) crank = _
  simp only [assignRanksLoop]
  rw [assignRanksLoop_fuel xs.length (xs.drop (countRun x xs)).length
        (xs.drop (countRun x xs)) (crank + countRun x xs + 1)
        (by simp only [List.length_drop]; omega) (le_refl _)]
  rfl

theorem assign_ranks_length (l : List ℚ) (crank : ℕ) :
    ((assign_ranks l crank).1).length = l.length := by
  match l with
  | [] => rfl
  | x :: xs =>
    have hc := countRun_le x xs
    have ih := assign_ranks_length (xs.drop (countRun x xs)) (crank + countRun x xs + 1)
    rw [assign_ranks_cons]
    simp only [List.length_append, List.length_replicate, ih, List.length_drop,
      List.length_cons]
    omega
termination_by l.length
decreasing_by simp only [List.length_drop, List.length_cons]; omega

/-- Cast of the C accumulator `totalrank = crank + (crank+1) + … + (crank+c)`. -/
theorem totalrank_cast (crank c : ℕ) :
    ((∑ m ∈ Finset.range (c + 1), (crank + m) : ℕ) : ℚ)
      = ((c : ℚ) + 1) * crank + c * ((c : ℚ) + 1) / 2 := by
  induction c with
  | zero => simp
  | succ n ih =>
    rw [Finset.sum_range_succ]
    push_cast
    push_cast at ih
    rw [ih]
    ring

/-- Rank-sum invariant of the tie-averaging loop: processing a block of `N`
keys starting at natural rank `crank` contributes exactly
`N*crank + N(N-1)/2` to the total rank sum, ties or not. -/
theorem assign_ranks_sum (l : List ℚ) (crank : ℕ) :
    ((assign_ranks l crank).1).sum
      = (l.length : ℚ) * crank + l.length * ((l.length : ℚ) - 1) / 2 := by
  match l with
  | [] => simp [assign_ranks_nil]
  | x :: xs =>
    have hc := countRun_le x xs
    have ih := assign_ranks_sum (xs.drop (countRun x xs)) (crank + countRun x xs + 1)
    rw [assign_ranks_cons]
    simp only [List.sum_append, List.sum_replicate, nsmul_eq_mul]
    rw [ih, totalrank_cast]
    have hlen : ((xs.drop (countRun x xs)).length : ℚ)
        = (xs.length : ℚ) - (countRun x xs : ℚ) := by
      rw [List.length_drop, Nat.cast_sub hc]
    rw [hlen]
    have hne : ((countRun x xs : ℚ) + 1) ≠ 0 := by positivity
    field_simp
    ring
termination_by l.length
decreasing_by simp only [List.length_drop, List.length_cons]; omega

/-- With pairwise-distinct keys no tie branch ever fires and the loop hands
out the consecutive natural ranks `crank, crank+1, …`. -/
theorem assign_ranks_nodup (l : List ℚ) (crank : ℕ) (h : l.Chain' (· ≠ ·)) :
    (assign_ranks l crank).1 = (List.range' crank l.length).map (fun k => (k : ℚ)) := by
  induction l generalizing crank with
  | nil => simp [assign_ranks_nil]
  | cons x xs ih =>
    have hc0 : countRun x xs = 0 := by
      cases xs with
      | nil => rfl
      | cons y ys =>
        have hxy : x ≠ y := (List.chain'_cons.mp h).1
        simp only [countRun, ite_eq_right_iff]
        intro hyx
        exact absurd hyx.symm hxy
    have htail : xs.Chain' (· ≠ ·) := by
      cases xs with
      | nil => exact List.chain'_nil
      | cons y ys => exact (List.chain'_cons.mp h).2
    rw [assign_ranks_cons, hc0]
    simp only [List.drop_zero, zero_add, Nat.add_zero, List.length_cons]
    rw [ih (crank + 1) htail, List.range'_succ]
    simp [List.replicate]

theorem assign_ranks_pos (l : List ℚ) (crank : ℕ) (hcr : 0 < crank) :
    ∀ r ∈ (assign_ranks l crank).1, 0 < r := by
  match l with
  | [] => simp [assign_ranks_nil]
  | x :: xs =>
    have ih := assign_ranks_pos (xs.drop (countRun x xs)) (crank + countRun x xs + 1)
      (by omega)
    rw [assign_ranks_cons]
    intro r hr
    rcases List.mem_append.mp hr with h | h
    · rcases List.mem_replicate.mp h with ⟨-, rfl⟩
      apply div_pos
      · have hpos : 0 < ∑ m ∈ Finset.range (countRun x xs + 1), (crank + m) :=
          Finset.sum_pos (fun i _ => by omega) ⟨0, Finset.mem_range.mpr (by omega)⟩
        exact_mod_cast hpos
      · positivity
    · exact ih r h
termination_by l.length
decreasing_by simp only [List.length_drop, List.length_cons]; omega

/-- C1: for every ascending-sorted `RankedSet` of size `N ≥ 1`, after
`assign_ranks` the sum of all assigned ranks equals `N(N+1)/2` exactly,
ties or not; and when no two comparison keys are equal the assigned ranks
are a permutation of `1..N`. -/
theorem c1_rank_sum (l : List ℚ) (hs : l.Sorted (· ≤ ·)) (hN : 1 ≤ l.length) :
    ((assign_ranks l 1).1).sum = (l.length : ℚ) * ((l.length : ℚ) + 1) / 2
    ∧ (l.Pairwise (fun a b => a ≠ b) →
        ((assign_ranks l 1).1).Perm
          ((List.range' 1 l.length).map (fun k => (k : ℚ)))) := by
  constructor
  · rw [assign_ranks_sum]
    push_cast
    ring
  · intro hnd
    rw [assign_ranks_nodup l 1 hnd.chain']

/-- Witness for C1 at the concrete sorted pool `[1, 2, 3]`. -/
theorem c1_rank_sum_witness :
    List.Sorted (· ≤ ·) [(1 : ℚ), 2, 3] ∧ 1 ≤ ([(1 : ℚ), 2, 3]).length
    ∧ List.Pairwise (fun a b => a ≠ b) [(1 : ℚ), 2, 3]
    ∧ ((assign_ranks [(1 : ℚ), 2, 3] 1).1).sum
        = (([(1 : ℚ), 2, 3]).length : ℚ) * ((([(1 : ℚ), 2, 3]).length : ℚ) + 1) / 2
    ∧ ((assign_ranks [(1 : ℚ), 2, 3] 1).1).Perm
        ((List.range' 1 ([(1 : ℚ), 2, 3]).length).map (fun k => (k : ℚ))) := by
  have hs : List.Sorted (· ≤ ·) [(1 : ℚ), 2, 3] := by decide
  have hN : 1 ≤ ([(1 : ℚ), 2, 3]).length := by decide
  have hp : List.Pairwise (fun a b => a ≠ b) [(1 : ℚ), 2, 3] := by decide
  exact ⟨hs, hN, hp, (c1_rank_sum _ hs hN).1, (c1_rank_sum _ hs hN).2 hp⟩

theorem countRun_eq_zero_of_head (v : ℚ) (l : List ℚ) (h : l.head? ≠ some v) :
    countRun v l = 0 := by
  cases l with
  | nil => rfl
  | cons y ys =>
    simp only [List.head?_cons, ne_eq, Option.some.injEq] at h
    simp [countRun, h]

theorem countRun_replicate (v : ℚ) (c : ℕ) : countRun v (List.replicate c v) = c := by
  induction c with
  | zero => rfl
  | succ n ih => simp [List.replicate_succ, countRun, ih]

theorem countRun_append (v : ℚ) (xs l2 : List ℚ) :
    countRun v (xs ++ l2)
      = if countRun v xs = xs.length then xs.length + countRun v l2
        else countRun v xs := by
  induction xs with
  | nil => simp [countRun]
  | cons y ys ih =>
    have hcons : ∀ z : ℚ, ∀ l : List ℚ,
        countRun v (z :: l) = if z = v then countRun v l + 1 else 0 :=
      fun _ _ => rfl
    rw [List.cons_append, hcons, hcons, List.length_cons]
    by_cases h : y = v
    · rw [if_pos h, if_pos h, ih]
      by_cases h2 : countRun v ys = ys.length
      · rw [if_pos h2, if_pos (by omega)]
        omega
      · rw [if_neg h2, if_neg (by omega)]
    · rw [if_neg h, if_neg h, if_neg (by omega)]

theorem countRun_eq_length_all (v : ℚ) (xs : List ℚ) (h : countRun v xs = xs.length) :
    ∀ y ∈ xs, y = v := by
  induction xs with
  | nil => simp
  | cons z zs ih =>
    by_cases hz : z = v
    · subst hz
      have h' : countRun z zs = zs.length := by
        have h2 : countRun z (z :: zs) = countRun z zs + 1 := by
          simp [countRun]
        rw [h2, List.length_cons] at h
        omega
      intro y hy
      rcases List.mem_cons.mp hy with rfl | hy'
      · rfl
      · exact ih h' y hy'
    · simp only [countRun, if_neg hz, List.length_cons] at h
      omega

theorem getLast?_of_all_eq (x : ℚ) (xs : List ℚ) (h : ∀ y ∈ xs, y = x) :
    (x :: xs).getLast? = some x := by
  induction xs generalizing x with
  | nil => rfl
  | cons y ys ih =>
    rw [List.getLast?_cons_cons]
    have hy : y = x := h y (List.mem_cons_self _ _)
    subst hy
    exact ih y (fun z hz => h z (List.mem_cons_of_mem _ hz))

theorem getLast?_drop_of_ne_nil (c : ℕ) (l : List ℚ) (h : l.drop c ≠ []) :
    (l.drop c).getLast? = l.getLast? := by
  induction l generalizing c with
  | nil => simp at h
  | cons x xs ih =>
    cases c with
    | zero => rfl
    | succ n =>
      simp only [List.drop_succ_cons] at h ⊢
      rw [ih n h]
      have hxs : xs ≠ [] := by
        intro he
        subst he
        simp at h
      cases xs with
      | nil => exact absurd rfl hxs
      | cons y ys => rw [List.getLast?_cons_cons]

theorem mem_of_getLast?_eq (l : List ℚ) (a : ℚ) (h : l.getLast? = some a) : a ∈ l := by
  rcases List.mem_getLast?_eq_getLast (x := a) (Option.mem_def.mpr h) with ⟨hne, rfl⟩
  exact List.getLast_mem hne

theorem mem_of_head?_eq (l : List ℚ) (a : ℚ) (h : l.head? = some a) : a ∈ l := by
  cases l with
  | nil => simp at h
  | cons x xs =>
    simp only [List.head?_cons, Option.some.injEq] at h
    subst h
    exact List.mem_cons_self _ _

/-- The `total_ties` component does not depend on the starting rank. -/
theorem assign_ranks_ties_crank (l : List ℚ) (crank crank' : ℕ) :
    (assign_ranks l crank).2 = (assign_ranks l crank').2 := by
  match l with
  | [] => rfl
  | x :: xs =>
    have ih := assign_ranks_ties_crank (xs.drop (countRun x xs))
      (crank + countRun x xs + 1) (crank' + countRun x xs + 1)
    rw [assign_ranks_cons, assign_ranks_cons, ih]
termination_by l.length
decreasing_by simp only [List.length_drop, List.length_cons]; omega

/-- When the last key of `l1` differs from the first key of `l2`, the
rank-assignment loop processes `l1 ++ l2` exactly as `l1` followed by `l2`
(with the natural rank advanced by `l1.length`), and the tie counts add. -/
theorem assign_ranks_append (l1 l2 : List ℚ) (crank : ℕ)
    (hb : ∀ a, l1.getLast? = some a → l2.head? ≠ some a) :
    assign_ranks (l1 ++ l2) crank
      = ((assign_ranks l1 crank).1 ++ (assign_ranks l2 (crank + l1.length)).1,
         (assign_ranks l1 crank).2 + (assign_ranks l2 (crank + l1.length)).2) := by
  match l1 with
  | [] => simp [assign_ranks_nil]
  | x :: xs =>
    have hc := countRun_le x xs
    by_cases hall : countRun x xs = xs.length
    · have hlast : (x :: xs).getLast? = some x :=
        getLast?_of_all_eq x xs (countRun_eq_length_all x xs hall)
      have hh : l2.head? ≠ some x := hb x hlast
      have hrun : countRun x (xs ++ l2) = xs.length := by
        rw [countRun_append, if_pos hall, countRun_eq_zero_of_head x l2 hh]
        omega
      rw [List.cons_append, assign_ranks_cons, assign_ranks_cons, hall, hrun,
        List.drop_left, List.drop_length, assign_ranks_nil]
      refine Prod.ext ?_ ?_
      · simp only [List.append_nil, List.length_cons]
        have harg : crank + xs.length + 1 = crank + (xs.length + 1) := by omega
        rw [harg]
      · simp only [List.length_cons]
        have harg : crank + xs.length + 1 = crank + (xs.length + 1) := by omega
        rw [harg]
        omega
    · have hlt : countRun x xs < xs.length := lt_of_le_of_ne hc hall
      have hrun : countRun x (xs ++ l2) = countRun x xs := by
        rw [countRun_append, if_neg hall]
      have hdropne : xs.drop (countRun x xs) ≠ [] := by
        intro he
        have hlen := List.length_drop (countRun x xs) xs
        rw [he] at hlen
        simp only [List.length_nil] at hlen
        omega
      have hxs : xs ≠ [] := by
        intro he
        subst he
        simp at hlt
      have hb' : ∀ a, (xs.drop (countRun x xs)).getLast? = some a →
          l2.head? ≠ some a := by
        intro a ha
        apply hb a
        rw [getLast?_drop_of_ne_nil (countRun x xs) xs hdropne] at ha
        cases xs with
        | nil => exact absurd rfl hxs
        | cons y ys => rw [List.getLast?_cons_cons]; exact ha
      have ih := assign_ranks_append (xs.drop (countRun x xs)) l2
        (crank + countRun x xs + 1) hb'
      rw [List.cons_append, assign_ranks_cons, hrun,
        List.drop_append_of_le_length hc, ih, assign_ranks_cons]
      have harg : crank + countRun x xs + 1 + (xs.drop (countRun x xs)).length
          = crank + (x :: xs).length := by
        rw [List.length_drop, List.length_cons]
        omega
      rw [harg]
      refine Prod.ext ?_ ?_
      · simp [List.append_assoc]
      · simp only
        omega
termination_by l1.length
decreasing_by simp only [List.length_drop, List.length_cons]; omega

/-- Processing a maximal tie run of `c+1` copies of `v` at the head: every
member of the run receives the averaged rank and the run adds `c` ties. -/
theorem assign_ranks_run (v : ℚ) (c : ℕ) (suf : List ℚ) (crank : ℕ)
    (hsuf : suf.head? ≠ some v) :
    assign_ranks (List.replicate (c + 1) v ++ suf) crank
      = (List.replicate (c + 1)
            (((∑ m ∈ Finset.range (c + 1), (crank + m) : ℕ) : ℚ) / (c + 1))
          ++ (assign_ranks suf (crank + c + 1)).1,
         (assign_ranks suf (crank + c + 1)).2 + c) := by
  have h1 : List.replicate (c + 1) v ++ suf = v :: (List.replicate c v ++ suf) := by
    rw [List.replicate_succ, List.cons_append]
  rw [h1, assign_ranks_cons]
  have hcr : countRun v (List.replicate c v ++ suf) = c := by
    rw [countRun_append, countRun_replicate, List.length_replicate, if_pos rfl,
      countRun_eq_zero_of_head v suf hsuf]
    omega
  rw [hcr]
  have hdrop : (List.replicate c v ++ suf).drop c = suf := by
    have h2 := List.drop_left (List.replicate c v) suf
    rwa [List.length_replicate] at h2
  rw [hdrop]

/-- C2: on an ascending-sorted pool, `assign_ranks` gives every observation of
a maximal run of `c+1` equal comparison keys starting at natural rank
`r = pre.length + 1` the averaged rank `(r + (r+1) + … + (r+c))/(c+1)`, and
the run contributes exactly `c` to the returned tie count (so the total tie
count is the sum of `c` over the maximal runs of `c+1` tied observations). -/
theorem c2_tie_run (l pre suf : List ℚ) (v : ℚ) (c : ℕ)
    (hs : l.Sorted (· ≤ ·))
    (hdecomp : l = pre ++ List.replicate (c + 1) v ++ suf)
    (hpre : pre.getLast? ≠ some v) (hsuf : suf.head? ≠ some v) :
    ((((assign_ranks l 1).1).drop pre.length).take (c + 1)
        = List.replicate (c + 1)
            ((∑ m ∈ Finset.range (c + 1), ((pre.length : ℚ) + 1 + m)) / ((c : ℚ) + 1)))
    ∧ (assign_ranks l 1).2 = (assign_ranks (pre ++ suf) 1).2 + c := by
  subst hdecomp
  rw [List.append_assoc] at hs ⊢
  have hmemv : v ∈ List.replicate (c + 1) v :=
    List.mem_replicate.mpr ⟨Nat.succ_ne_zero c, rfl⟩
  have hb1 : ∀ a, pre.getLast? = some a →
      (List.replicate (c + 1) v ++ suf).head? ≠ some a := by
    intro a ha hcon
    have hva : v = a := by
      rw [List.replicate_succ, List.cons_append, List.head?_cons] at hcon
      exact Option.some.inj hcon
    subst hva
    exact hpre ha
  have happ := assign_ranks_append pre (List.replicate (c + 1) v ++ suf) 1 hb1
  have hrun := assign_ranks_run v c suf (1 + pre.length) hsuf
  constructor
  · have h1 : (assign_ranks (pre ++ (List.replicate (c + 1) v ++ suf)) 1).1
        = (assign_ranks pre 1).1
          ++ (assign_ranks (List.replicate (c + 1) v ++ suf) (1 + pre.length)).1 := by
      rw [happ]
    rw [h1]
    have h2 : (assign_ranks (List.replicate (c + 1) v ++ suf) (1 + pre.length)).1
        = List.replicate (c + 1)
            (((∑ m ∈ Finset.range (c + 1), (1 + pre.length + m) : ℕ) : ℚ) / ((c : ℚ) + 1))
          ++ (assign_ranks suf (1 + pre.length + c + 1)).1 := by
      rw [hrun]
    rw [h2, List.drop_left' (assign_ranks_length pre 1),
      List.take_left' (List.length_replicate _ _)]
    have havg : ((∑ m ∈ Finset.range (c + 1), (1 + pre.length + m) : ℕ) : ℚ)
        = ∑ m ∈ Finset.range (c + 1), ((pre.length : ℚ) + 1 + m) := by
      push_cast
      exact Finset.sum_congr rfl (fun m _ => by ring)
    rw [havg]
  · have hb2 : ∀ a, pre.getLast? = some a → suf.head? ≠ some a := by
      intro a ha hcon
      have hmem_s : a ∈ suf := mem_of_head?_eq suf a hcon
      have hmem_p : a ∈ pre := mem_of_getLast?_eq pre a ha
      have hane : a ≠ v := fun he => hpre (he ▸ ha)
      have hsp := hs
      rw [List.Sorted, List.pairwise_append] at hsp
      obtain ⟨-, hmid, hcr1⟩ := hsp
      rw [List.pairwise_append] at hmid
      obtain ⟨-, -, hcr2⟩ := hmid
      have hle1 : a ≤ v := hcr1 a hmem_p v (List.mem_append_left _ hmemv)
      have hle2 : v ≤ a := hcr2 v hmemv a hmem_s
      exact hane (le_antisymm hle1 hle2)
    have happ2 := assign_ranks_append pre suf 1 hb2
    have hA : (assign_ranks (pre ++ (List.replicate (c + 1) v ++ suf)) 1).2
        = (assign_ranks pre 1).2
          + (assign_ranks (List.replicate (c + 1) v ++ suf) (1 + pre.length)).2 := by
      rw [happ]
    have hB : (assign_ranks (List.replicate (c + 1) v ++ suf) (1 + pre.length)).2
        = (assign_ranks suf (1 + pre.length + c + 1)).2 + c := by
      rw [hrun]
    have hC : (assign_ranks (pre ++ suf) 1).2
        = (assign_ranks pre 1).2 + (assign_ranks suf (1 + pre.length)).2 := by
      rw [happ2]
    have hD := assign_ranks_ties_crank suf (1 + pre.length + c + 1) (1 + pre.length)
    omega

/-- Witness for C2 at the concrete sorted pool `[1, 2, 2, 3]` whose middle
run `[2, 2]` starts at natural rank 2 and gets averaged rank `5/2`. -/
theorem c2_tie_run_witness :
    List.Sorted (· ≤ ·) [(1 : ℚ), 2, 2, 3]
    ∧ [(1 : ℚ), 2, 2, 3] = [(1 : ℚ)] ++ List.replicate (1 + 1) (2 : ℚ) ++ [(3 : ℚ)]
    ∧ ([(1 : ℚ)]).getLast? ≠ some 2 ∧ ([(3 : ℚ)]).head? ≠ some 2
    ∧ (((assign_ranks [(1 : ℚ), 2, 2, 3] 1).1).drop ([(1 : ℚ)]).length).take (1 + 1)
        = List.replicate (1 + 1)
            ((∑ m ∈ Finset.range (1 + 1), ((([(1 : ℚ)]).length : ℚ) + 1 + m))
              / (((1 : ℕ) : ℚ) + 1))
    ∧ (assign_ranks [(1 : ℚ), 2, 2, 3] 1).2
        = (assign_ranks ([(1 : ℚ)] ++ [(3 : ℚ)]) 1).2 + 1 := by
  have h1 : List.Sorted (· ≤ ·) [(1 : ℚ), 2, 2, 3] := by decide
  have h2 : [(1 : ℚ), 2, 2, 3] = [(1 : ℚ)] ++ List.replicate (1 + 1) (2 : ℚ) ++ [(3 : ℚ)] := by
    decide
  have h3 : ([(1 : ℚ)]).getLast? ≠ some 2 := by decide
  have h4 : ([(3 : ℚ)]).head? ≠ some 2 := by decide
  have hmain := c2_tie_run [(1 : ℚ), 2, 2, 3] [(1 : ℚ)] [(3 : ℚ)] 2 1 h1 h2 h3 h4
  exact ⟨h1, h2, h3, h4, hmain.1, hmain.2⟩

/-- Model of `myabs`. -/
def myabs (v : ℚ) : ℚ := if 0 ≤ v then v else -v

/-- Ranks of the nonzero Wilcoxon differences: `assign_ranks(p, n)` in
`wilcoxon-sign.cc` compares `myabs(diff)`, so it is the generic rank loop
run on the key list `|d_i|`. -/
def ranksOfDiffs (ds : List ℚ) : List ℚ := (assign_ranks (ds.map myabs) 1).1

/-- Signed ranks: `p[i].sigrank = -p[i].rank` when `p[i].diff < 0`, else
`p[i].rank` (lines 181-187 of `wilcoxon-sign.cc`). -/
def sigranks (ds : List ℚ) : List ℚ :=
  List.zipWith (fun d r => if d < 0 then -r else r) ds (ranksOfDiffs ds)

/-- `Tplus`: the loop adds `p[i].sigrank` whenever `p[i].diff > 0`. -/
def TplusOf (ds : List ℚ) : ℚ :=
  (List.zipWith (fun d sr => if 0 < d then sr else 0) ds (sigranks ds)).sum

/-- `Tminus` as the spec defines it: the sum of the absolute values of the
negative signed ranks (not computed by the code; used in claim C9). -/
def TminusOf (ds : List ℚ) : ℚ :=
  ((sigranks ds).map (fun sr => if sr < 0 then -sr else 0)).sum

/-- The branch condition `(n>50)||(double(ties)/double(Nsamp[0])>0.5)` of
`wilcoxon-sign.cc` line 205 selecting the normal approximation. -/
def usesNormalApprox (n ties nsamp0 : ℕ) : Bool :=
  decide (50 < n) || decide ((0.5 : ℚ) < (ties : ℚ) / (nsamp0 : ℚ))

open Classical in
/-- Model of the normal-approximation branch (lines 211-240): `upperp` and
`lowerp` from Equations 7/8 of Conover; the two-tailed `pvalue` is computed
and then overwritten by `upperp` ("for a 1-tailed test"), which is what is
reported. -/
noncomputable def normalApproxP (Z : ℝ → ℝ) (ds : List ℚ) : ℝ :=
  let sum : ℚ := (sigranks ds).sum
  let sumsq : ℚ := ((sigranks ds).map (fun r => r ^ 2)).sum
  let lowerp := 1 - Z (((sum : ℝ) + 1) / Real.sqrt (sumsq : ℝ))
  let upperp := Z (((sum : ℝ) - 1) / Real.sqrt (sumsq : ℝ))
  let pvalue := if lowerp < upperp then 2 * lowerp else 2 * upperp
  let pvalue := upperp
  pvalue

/-- The nine tabulated two-tailed significance levels `Wsig[0..8]`. -/
def Wsig (j : ℕ) : ℚ :=
  ([0.005, 0.01, 0.025, 0.05, 0.1, 0.2, 0.3, 0.4, 0.5] : List ℚ).getD j 0

/-- The critical-value table `W[4..50][0..8]` of `init_W` (Table A12 of
Conover (1999) as transcribed by the source, including the transcribed
value `W[44][0] = 227`), row `n` stored at index `n - 4`. -/
def Wtable : List (List ℚ) :=
  [[0, 0, 0, 0, 1, 3, 3, 4, 5],
   [0, 0, 0, 1, 3, 4, 5, 6, 7.5],
   [0, 0, 1, 3, 4, 6, 8, 9, 10.5],
   [0, 1, 3, 4, 6, 9, 11, 12, 14],
   [1, 2, 4, 6, 9, 12, 14, 16, 18],
   [2, 4, 6, 9, 11, 15, 18, 20, 22.5],
   [4, 6, 9, 11, 15, 19, 22, 25, 27.5],
   [6, 8, 11, 14, 18, 23, 27, 30, 33],
   [8, 10, 14, 18, 22, 28, 32, 36, 39],
   [10, 13, 18, 22, 27, 33, 38, 42, 45.5],
   [13, 16, 22, 26, 32, 39, 44, 48, 52.5],
   [16, 20, 26, 31, 37, 45, 51, 55, 60],
   [20, 24, 30, 36, 43, 51, 58, 63, 68],
   [24, 28, 35, 42, 49, 58, 65, 71, 76.5],
   [28, 33, 41, 48, 56, 66, 73, 80, 85.5],
   [33, 38, 47, 54, 63, 74, 82, 89, 95],
   [38, 44, 53, 61, 70, 83, 91, 98, 105],
   [44, 50, 59, 68, 78, 91, 100, 108, 115.5],
   [49, 56, 67, 76, 87, 100, 110, 119, 126.5],
   [55, 63, 74, 84, 95, 110, 120, 130, 138],
   [62, 70, 82, 92, 105, 120, 131, 141, 150],
   [69, 77, 90, 101, 114, 131, 143, 153, 162.5],
   [76, 85, 99, 111, 125, 142, 155, 165, 175.5],
   [84, 94, 108, 120, 135, 154, 167, 178, 189],
   [92, 102, 117, 131, 146, 166, 180, 192, 203],
   [101, 111, 127, 141, 158, 178, 193, 206, 217.5],
   [110, 121, 138, 152, 170, 191, 207, 220, 232.5],
   [119, 131, 148, 164, 182, 205, 221, 235, 248],
   [129, 141, 160, 176, 195, 219, 236, 250, 264],
   [139, 152, 171, 188, 208, 233, 251, 266, 280.5],
   [149, 163, 183, 201, 222, 248, 266, 282, 297.5],
   [160, 175, 196, 214, 236, 263, 283, 299, 315],
   [172, 187, 209, 228, 251, 279, 299, 317, 333],
   [184, 199, 222, 242, 266, 296, 316, 335, 351.5],
   [196, 212, 236, 257, 282, 312, 334, 353, 370.5],
   [208, 225, 250, 272, 298, 329, 352, 372, 390],
   [221, 239, 265, 287, 314, 347, 371, 391, 410],
   [235, 253, 280, 303, 331, 365, 390, 411, 430.5],
   [248, 267, 295, 320, 349, 384, 409, 431, 451.5],
   [263, 282, 311, 337, 366, 403, 429, 452, 473],
   [227, 297, 328, 354, 385, 422, 450, 473, 495],
   [292, 313, 344, 372, 403, 442, 471, 495, 517.5],
   [308, 329, 362, 390, 423, 463, 492, 517, 540.5],
   [324, 346, 379, 408, 442, 484, 514, 540, 564],
   [340, 363, 397, 428, 463, 505, 536, 563, 588],
   [357, 381, 416, 447, 483, 527, 559, 587, 612.5],
   [374, 398, 435, 467, 504, 550, 583, 611, 637.5]]

/-- `W[n][j]` lookup (rows `n ∈ [4,50]`, columns `j ∈ [0,8]`). -/
def W (n j : ℕ) : ℚ := (Wtable.getD (n - 4) []).getD j 0

/-- Fuel-indexed model of the scan `while(W[n][j]<Tplus && j<8) j++` at
lines 271-276 of `wilcoxon-sign.cc`; the guard `j<8` bounds the loop by 8
iterations, so fuel 8 reproduces it exactly. -/
def scanWLoop (n : ℕ) (T : ℚ) : ℕ → ℕ → ℕ
  | 0, j => j
  | fuel + 1, j => if W n j < T ∧ j < 8 then scanWLoop n T fuel (j + 1) else j

/-- The one-tailed p-value `upperp = Wsig[j]` reported by the exact-table
branch for remaining sample size `n` and rank sum `Tplus`. -/
def upperpTable (n : ℕ) (T : ℚ) : ℚ := Wsig (scanWLoop n T 8 0)

/-- Modelled from the spec (claim C3's wording): scan the levels in
increasing order and report the first whose tabulated critical value
strictly EXCEEDS `Tplus`, falling through to the largest level. -/
def strictScanWLoop (n : ℕ) (T : ℚ) : ℕ → ℕ → ℕ
  | 0, j => j
  | fuel + 1, j => if W n j ≤ T ∧ j < 8 then strictScanWLoop n T fuel (j + 1) else j

/-- Modelled from the spec: the level claim C3 says gets reported. -/
def firstLevelExceeding (n : ℕ) (T : ℚ) : ℚ := Wsig (strictScanWLoop n T 8 0)

/-- Splitting the signed-rank sum: with nonzero differences and positive
ranks, the positive signed ranks and the absolute values of the negative
signed ranks together recover the plain rank sum. -/
theorem signed_split (ds rs : List ℚ) (hlen : ds.length = rs.length)
    (h0 : ∀ d ∈ ds, d ≠ 0) (hpos : ∀ r ∈ rs, 0 < r) :
    (List.zipWith (fun d sr => if 0 < d then sr else 0) ds
        (List.zipWith (fun d r => if d < 0 then -r else r) ds rs)).sum
      + ((List.zipWith (fun d r => if d < 0 then -r else r) ds rs).map
          (fun sr => if sr < 0 then -sr else 0)).sum
      = rs.sum := by
  induction ds generalizing rs with
  | nil =>
    cases rs with
    | nil => simp
    | cons r rs' => simp at hlen
  | cons d ds' ih =>
    cases rs with
    | nil => simp at hlen
    | cons r rs' =>
      simp only [List.zipWith_cons_cons, List.map_cons, List.sum_cons]
      have hd : d ≠ 0 := h0 d (List.mem_cons_self _ _)
      have hr : 0 < r := hpos r (List.mem_cons_self _ _)
      have ihh := ih rs' (by simpa using hlen)
        (fun x hx => h0 x (List.mem_cons_of_mem _ hx))
        (fun x hx => hpos x (List.mem_cons_of_mem _ hx))
      by_cases hneg : d < 0
      · rw [if_pos hneg, if_neg (by linarith : ¬ 0 < d),
          if_pos (by linarith : -r < 0), neg_neg]
        linarith [ihh]
      · have h1 : 0 < d := lt_of_le_of_ne (not_lt.mp hneg) (Ne.symm hd)
        rw [if_neg hneg, if_pos h1, if_neg (by linarith : ¬ r < 0)]
        linarith [ihh]

/-- C9: for every Wilcoxon pair with `n ≥ 1` remaining nonzero differences
(sorted by absolute value, as the pipeline produces them),
`Tplus + Tminus = n(n+1)/2` exactly. -/
theorem c9_signed_rank_sum (ds : List ℚ) (h0 : ∀ d ∈ ds, d ≠ 0)
    (h1 : 1 ≤ ds.length) (hsorted : (ds.map myabs).Sorted (· ≤ ·)) :
    TplusOf ds + TminusOf ds = (ds.length : ℚ) * ((ds.length : ℚ) + 1) / 2 := by
  have hlen : ds.length = (ranksOfDiffs ds).length := by
    rw [ranksOfDiffs, assign_ranks_length, List.length_map]
  have hpos : ∀ r ∈ ranksOfDiffs ds, 0 < r :=
    assign_ranks_pos (ds.map myabs) 1 (by omega)
  have hsplit := signed_split ds (ranksOfDiffs ds) hlen h0 hpos
  rw [TplusOf, TminusOf, sigranks, hsplit, ranksOfDiffs, assign_ranks_sum,
    List.length_map]
  push_cast
  ring

/-- Witness for C9 at the concrete difference list `[1, -2]`. -/
theorem c9_signed_rank_sum_witness :
    (∀ d ∈ [(1 : ℚ), -2], d ≠ 0) ∧ 1 ≤ ([(1 : ℚ), -2]).length
    ∧ (([(1 : ℚ), -2]).map myabs).Sorted (· ≤ ·)
    ∧ TplusOf [(1 : ℚ), -2] + TminusOf [(1 : ℚ), -2]
        = (([(1 : ℚ), -2]).length : ℚ) * ((([(1 : ℚ), -2]).length : ℚ) + 1) / 2 := by
  have h0 : ∀ d ∈ [(1 : ℚ), -2], d ≠ 0 := by decide
  have h1 : 1 ≤ ([(1 : ℚ), -2]).length := by decide
  have h2 : (([(1 : ℚ), -2]).map myabs).Sorted (· ≤ ·) := by decide
  exact ⟨h0, h1, h2, c9_signed_rank_sum [(1 : ℚ), -2] h0 h1 h2⟩

/-- C4: the normal-approximation branch is selected exactly when `n > 50`
or `(dropped zeros)/(original size) > 0.5`, and the p-value it reports is
`Φ((sum − 1)/√sumsq)` over the signed ranks — the computed lower-tail /
two-tailed value is dead code that never reaches the output. -/
theorem c4_normal_branch (Z : ℝ → ℝ) (ties nsamp0 : ℕ) (ds : List ℚ) :
    (usesNormalApprox ds.length ties nsamp0 = true
        ↔ (50 < ds.length ∨ (1 : ℚ) / 2 < (ties : ℚ) / (nsamp0 : ℚ)))
    ∧ normalApproxP Z ds
        = Z (((((sigranks ds).sum : ℚ) : ℝ) - 1)
              / Real.sqrt (((((sigranks ds).map (fun r => r ^ 2)).sum : ℚ) : ℝ))) := by
  constructor
  · rw [usesNormalApprox]
    simp only [Bool.or_eq_true, decide_eq_true_eq]
    norm_num
  · rfl

/-- The table-scan loop started at index `j` with all earlier critical
values below `T` stops at the least index `k` with `T ≤ W[n][k]`, or at 8. -/
theorem scanWLoop_spec (n : ℕ) (T : ℚ) (fuel j : ℕ) (hfj : j + fuel = 8)
    (hprev : ∀ i < j, W n i < T) :
    scanWLoop n T fuel j
      = Nat.find (p := fun k => T ≤ W n k ∨ k = 8) ⟨8, Or.inr rfl⟩ := by
  induction fuel generalizing j with
  | zero =>
    have hj : j = 8 := by omega
    subst hj
    simp only [scanWLoop]
    symm
    rw [Nat.find_eq_iff]
    refine ⟨Or.inr rfl, fun i hi => ?_⟩
    push_neg
    exact ⟨hprev i hi, by omega⟩
  | succ f ih =>
    have hjlt : j < 8 := by omega
    simp only [scanWLoop]
    split
    case isTrue h =>
      apply ih (j + 1) (by omega)
      intro i hi
      rcases Nat.lt_succ_iff_lt_or_eq.mp hi with h' | h'
      · exact hprev i h'
      · subst h'
        exact h.1
    case isFalse h =>
      have hTW : T ≤ W n j := by
        by_contra hc
        push_neg at hc
        exact h ⟨hc, hjlt⟩
      symm
      rw [Nat.find_eq_iff]
      refine ⟨Or.inl hTW, fun i hi => ?_⟩
      push_neg
      exact ⟨hprev i hi, by omega⟩

/-- C3 (amended): on the exact-table path (`4 ≤ n ≤ 50`) the reported
one-tailed p-value is the first of the nine tabulated levels, scanned in
increasing order, whose critical value is greater than OR EQUAL TO `Tplus`
(the scan stops when `W[n][j] < Tplus` fails); if every entry is below
`Tplus` the scan falls through to the largest level 0.5 (index 8). -/
theorem c3_table_scan (n : ℕ) (T : ℚ) (h4 : 4 ≤ n) (h50 : n ≤ 50) :
    upperpTable n T
      = Wsig (Nat.find (p := fun k => T ≤ W n k ∨ k = 8) ⟨8, Or.inr rfl⟩) := by
  rw [upperpTable,
    scanWLoop_spec n T 8 0 (by omega) (fun i hi => absurd hi (Nat.not_lt_zero i))]

/-- Witness for C3's amended scan rule at `n = 5`, `Tplus = 15` (the claim's
own fall-through example: every table entry is below 15, so level 0.5). -/
theorem c3_table_scan_witness :
    4 ≤ 5 ∧ 5 ≤ 50
    ∧ upperpTable 5 15
        = Wsig (Nat.find (p := fun k => (15 : ℚ) ≤ W 5 k ∨ k = 8) ⟨8, Or.inr rfl⟩)
    ∧ upperpTable 5 15 = 1 / 2 := by
  refine ⟨by norm_num, by norm_num, c3_table_scan 5 15 (by norm_num) (by norm_num), ?_⟩
  norm_num [upperpTable, scanWLoop, W, Wtable, Wsig, List.getD]

/-- C3 counterexample: for the reachable pair state with all five
differences negative (`n = 5`, no dropped zeros) we get `Tplus = 0`; the
code stops at the first entry with `W[5][j] ≥ 0`, i.e. `j = 0`, and reports
0.005, while the claim's strict "exceeds" rule would skip the zero entries
and report 0.05.  The claim as stated is therefore false. -/
theorem c3_counterexample :
    TplusOf [(-1 : ℚ), -2, -3, -4, -5] = 0
    ∧ upperpTable 5 (TplusOf [(-1 : ℚ), -2, -3, -4, -5]) = 1 / 200
    ∧ firstLevelExceeding 5 (TplusOf [(-1 : ℚ), -2, -3, -4, -5]) = 1 / 20
    ∧ upperpTable 5 (TplusOf [(-1 : ℚ), -2, -3, -4, -5])
        ≠ firstLevelExceeding 5 (TplusOf [(-1 : ℚ), -2, -3, -4, -5]) := by
  have hT : TplusOf [(-1 : ℚ), -2, -3, -4, -5] = 0 := by
    norm_num [TplusOf, sigranks, ranksOfDiffs, assign_ranks, assignRanksLoop,
      countRun, myabs, Finset.sum_range_succ]
  have hcode : upperpTable 5 (TplusOf [(-1 : ℚ), -2, -3, -4, -5]) = 1 / 200 := by
    rw [hT]
    norm_num [upperpTable, scanWLoop, W, Wtable, Wsig, List.getD]
  have hclaim : firstLevelExceeding 5 (TplusOf [(-1 : ℚ), -2, -3, -4, -5]) = 1 / 20 := by
    rw [hT]
    norm_num [firstLevelExceeding, strictScanWLoop, W, Wtable, Wsig, List.getD]
  refine ⟨hT, hcode, hclaim, ?_⟩
  rw [hcode, hclaim]
  norm_num

/-- C10: the tabulated critical values are NOT nondecreasing in `n` down
every column: the transcription `W[44][0] = 227` (the published table has
277) drops below `W[43][0] = 263`. -/
theorem c10_table_monotonicity_break :
    W 43 0 = 263 ∧ W 44 0 = 227 ∧ ¬ W 43 0 ≤ W 44 0 := by
  refine ⟨?_, ?_, ?_⟩ <;> norm_num [W, Wtable, List.getD]

/-- An observation of the Kruskal-Wallis / Mann-Whitney pools: the C struct
`D { double value; int label; double rank; }`. -/
structure Obs where
  value : ℚ
  label : ℕ
  rank : ℚ

/-- Model of `sum_of_ranks(d, index, N)`. -/
def sum_of_ranks (d : List Obs) (index : ℕ) : ℚ :=
  (d.map (fun o => if o.label = index then o.rank else 0)).sum

/-- Model of `sum_squared_ranks(d, N)` (`pow(rank, 2.0)`). -/
def sum_squared_ranks (d : List Obs) : ℚ :=
  (d.map (fun o => o.rank ^ 2)).sum

/-- Sorting by value (`qsort(d, N, sizeof(D), compare)` with the
value-difference comparator) followed by `assign_ranks`: builds the ranked
pool from labelled values. -/
def rankPool (l : List (ℚ × ℕ)) : List Obs :=
  let s := l.insertionSort (fun p q => p.1 ≤ q.1)
  List.zipWith (fun p r => (⟨p.1, p.2, r⟩ : Obs)) s (assign_ranks (s.map Prod.fst) 1).1

/-- Model of `S_squared(d, N, ndist)` — Equation 4, page 289 of Conover. -/
def S_squared (d : List Obs) (N ndist : ℕ) : ℚ :=
  (1 / ((N : ℚ) - 1))
    * (sum_squared_ranks d - ((N : ℚ) * ((N : ℚ) + 1) * ((N : ℚ) + 1)) / 4)

/-- Model of `Tvalue(d, N, ndist, Nsamp)` — Equation 3, page 289. -/
def Tvalue (d : List Obs) (N ndist : ℕ) (Nsamp : List ℕ) : ℚ :=
  let S2 := S_squared d N ndist
  let sum := ((List.range ndist).map
      (fun i => sum_of_ranks d i * sum_of_ranks d i / (Nsamp.getD i 0 : ℚ))).sum
  (1 / S2) * (sum - ((N : ℚ) * ((N : ℚ) + 1) * ((N : ℚ) + 1)) / 4)

/-- Model of the Kruskal-Wallis `pairwise(a, b, d, N, Nsamp, T)` post-hoc
statistic — Equation 6, page 290. -/
noncomputable def pairwiseKW (d : List Obs) (N ndist : ℕ) (Nsamp : List ℕ)
    (T : ℚ) (a b : ℕ) : ℝ :=
  let value : ℚ :=
    sum_of_ranks d a / (Nsamp.getD a 0 : ℚ) - sum_of_ranks d b / (Nsamp.getD b 0 : ℚ)
  let denom : ℝ :=
    Real.sqrt (((S_squared d N ndist * ((N : ℚ) - 1 - T) / ((N : ℚ) - (ndist : ℚ)) : ℚ) : ℝ))
      * Real.sqrt ((((1 : ℚ) / (Nsamp.getD a 0 : ℚ) + (1 : ℚ) / (Nsamp.getD b 0 : ℚ) : ℚ) : ℝ))
  ((value : ℚ) : ℝ) / denom

/-- One output line `"%d better than %d with a p-value of %g\n"` of the
Kruskal-Wallis tool, with the `%g` rendering abstracted as `fmt`. -/
def kwLine (fmt : ℝ → String) (jj ii : ℕ) (p : ℝ) : String :=
  toString (jj + 1) ++ " better than " ++ toString (ii + 1)
    ++ " with a p-value of " ++ fmt p

open Classical in
/-- Model of the output stage of `kruskal-wallis.cc` `main` (lines 159-187):
`allsame = mychi(T, ndist-1)`; if `allsame <= alpha` one line per ordered
pair `(i, j)` with `i ≠ j` carrying `myt(pairwise(i,j,…), N-ndist)`,
otherwise the single literal `"H0"`.  Each list element is one `fprintf`
emission. -/
noncomputable def kruskalReport (mychi myt : ℝ → ℝ → ℝ) (fmt : ℝ → String)
    (alpha : ℝ) (d : List Obs) (N ndist : ℕ) (Nsamp : List ℕ) : List String :=
  let T := Tvalue d N ndist Nsamp
  let allsame := mychi ((T : ℚ) : ℝ) ((((ndist : ℤ) - 1 : ℤ) : ℤ) : ℝ)
  if allsame ≤ alpha then
    (List.range ndist).flatMap (fun i =>
      ((List.range ndist).filter (fun j => decide (¬ i = j))).map (fun j =>
        kwLine fmt j i
          (myt (pairwiseKW d N ndist Nsamp T i j) ((((N : ℤ) - (ndist : ℤ) : ℤ)) : ℝ))))
  else ["H0"]

theorem length_filter_ne (k i : ℕ) (hi : i < k) :
    ((List.range k).filter (fun j => decide (¬ i = j))).length = k - 1 := by
  induction k with
  | zero => simp at hi
  | succ n ih =>
    rw [List.range_succ, List.filter_append, List.length_append]
    by_cases h : i < n
    · rw [ih h]
      have hne : decide (¬ i = n) = true := by
        simp only [decide_eq_true_eq]
        omega
      simp only [List.filter_cons, hne, List.filter_nil, if_true, List.length_cons,
        List.length_nil]
      omega
    · have hin : i = n := by omega
      subst hin
      have h1 : (List.range i).filter (fun j => decide (¬ i = j)) = List.range i := by
        rw [List.filter_eq_self]
        intro a ha
        simp only [decide_eq_true_eq]
        have := List.mem_range.mp ha
        omega
      have h2 : ([i]).filter (fun j => decide (¬ i = j)) = [] := by
        simp
      rw [h1, h2]
      simp

theorem kw_lines_length (k : ℕ) (g : ℕ → ℕ → String) :
    ((List.range k).flatMap (fun i =>
        ((List.range k).filter (fun j => decide (¬ i = j))).map (g i))).length
      = k * (k - 1) := by
  rw [List.length_flatMap]
  have hconst : ∀ i ∈ List.range k,
      (List.length ∘ fun i =>
        ((List.range k).filter (fun j => decide (¬ i = j))).map (g i)) i = k - 1 := by
    intro i hi
    simp only [Function.comp_apply, List.length_map]
    exact length_filter_ne k i (List.mem_range.mp hi)
  rw [List.map_congr_left hconst]
  simp [List.map_const', List.sum_replicate, smul_eq_mul, List.length_range]

/-- C5: for the omnibus Kruskal-Wallis output stage with `k` samples and `N`
total observations, if the upper-tail chi-square p-value of `T` at `k-1`
degrees of freedom exceeds `alpha` the output is exactly the literal "H0";
otherwise it is exactly `k(k-1)` lines, one per ordered pair `(i, j)` with
`i ≠ j`, reading "`j+1` better than `i+1` with a p-value of `p`" where `p`
is the upper-tail Student-t probability at `N-k` degrees of freedom of the
pairwise post-hoc statistic. -/
theorem c5_kruskal_report (mychi myt : ℝ → ℝ → ℝ) (fmt : ℝ → String)
    (alpha : ℝ) (d : List Obs) (N ndist : ℕ) (Nsamp : List ℕ) :
    (alpha < mychi ((Tvalue d N ndist Nsamp : ℚ) : ℝ) ((((ndist : ℤ) - 1 : ℤ) : ℤ) : ℝ) →
      kruskalReport mychi myt fmt alpha d N ndist Nsamp = ["H0"])
    ∧ (mychi ((Tvalue d N ndist Nsamp : ℚ) : ℝ) ((((ndist : ℤ) - 1 : ℤ) : ℤ) : ℝ) ≤ alpha →
        (kruskalReport mychi myt fmt alpha d N ndist Nsamp).length = ndist * (ndist - 1)
        ∧ ∀ s, s ∈ kruskalReport mychi myt fmt alpha d N ndist Nsamp ↔
            ∃ i j, i < ndist ∧ j < ndist ∧ i ≠ j
              ∧ s = kwLine fmt j i
                  (myt (pairwiseKW d N ndist Nsamp (Tvalue d N ndist Nsamp) i j)
                    ((((N : ℤ) - (ndist : ℤ) : ℤ)) : ℝ))) := by
  constructor
  · intro h
    rw [kruskalReport]
    rw [if_neg (not_le.mpr h)]
  · intro h
    rw [kruskalReport]
    rw [if_pos h]
    constructor
    · exact kw_lines_length ndist _
    · intro s
      simp only [List.mem_flatMap, List.mem_map, List.mem_filter, List.mem_range,
        decide_eq_true_eq]
      constructor
      · rintro ⟨i, hi, j, ⟨⟨hj, hij⟩, rfl⟩⟩
        exact ⟨i, j, hi, hj, hij, rfl⟩
      · rintro ⟨i, j, hi, hj, hij, rfl⟩
        exact ⟨i, hi, j, ⟨⟨hj, hij⟩, rfl⟩⟩

/-- Witness for C5: with `mychi ≡ 1 > alpha = 0` the output is the literal
"H0"; with `mychi ≡ 0 ≤ alpha = 0` and `k = 2` the output has
`2·(2−1) = 2` lines. -/
theorem c5_kruskal_report_witness :
    ((0 : ℝ) < (fun _ _ => (1 : ℝ)) ((Tvalue [] 0 2 [] : ℚ) : ℝ) ((((2 : ℤ) - 1 : ℤ) : ℤ) : ℝ)
      ∧ kruskalReport (fun _ _ => (1 : ℝ)) (fun _ _ => 0) (fun _ => "p") 0 [] 0 2 [] = ["H0"])
    ∧ ((fun _ _ => (0 : ℝ)) ((Tvalue [] 0 2 [] : ℚ) : ℝ) ((((2 : ℤ) - 1 : ℤ) : ℤ) : ℝ) ≤ 0
      ∧ (kruskalReport (fun _ _ => (0 : ℝ)) (fun _ _ => 0) (fun _ => "p") 0 [] 0 2 []).length
          = 2 * (2 - 1)) := by
  have h1 : (0 : ℝ) < (fun _ _ => (1 : ℝ)) ((Tvalue [] 0 2 [] : ℚ) : ℝ)
      ((((2 : ℤ) - 1 : ℤ) : ℤ) : ℝ) := by norm_num
  have h2 : (fun _ _ => (0 : ℝ)) ((Tvalue [] 0 2 [] : ℚ) : ℝ)
      ((((2 : ℤ) - 1 : ℤ) : ℤ) : ℝ) ≤ 0 := by norm_num
  refine ⟨⟨h1, ?_⟩, ⟨h2, ?_⟩⟩
  · exact (c5_kruskal_report (fun _ _ => (1 : ℝ)) (fun _ _ => 0) (fun _ => "p")
      0 [] 0 2 []).1 h1
  · exact ((c5_kruskal_report (fun _ _ => (0 : ℝ)) (fun _ _ => 0) (fun _ => "p")
      0 [] 0 2 []).2 h2).1

/-- Model of `corrected_Tvalue(d, n, m, N, idx)` of `mann-whit.cc` —
Equation 2, page 273 of Conover with the tie correction.  `denom` is
computed first; the guard `if (T1 == 0.0) return 0.0;` fires before the
division by `sqrt(denom)` is evaluated. -/
noncomputable def corrected_Tvalue (d : List Obs) (n m N : ℕ) (idx : ℕ) : ℝ :=
  let T := sum_of_ranks d idx
  let ssR := sum_squared_ranks d
  let T1 : ℚ := T - ((n : ℚ) * ((N : ℚ) + 1)) / 2
  let denom : ℚ :=
    ((n : ℚ) * (m : ℚ)) / ((N : ℚ) * ((N : ℚ) - 1)) * ssR
      - ((m : ℚ) * (n : ℚ) * ((N : ℚ) + 1) * ((N : ℚ) + 1)) / (4 * ((N : ℚ) - 1))
  if T1 = 0 then 0 else ((T1 : ℚ) : ℝ) / Real.sqrt ((denom : ℚ) : ℝ)

theorem zipWith_obs_rank_sum (s : List (ℚ × ℕ)) (rs : List ℚ)
    (h : s.length = rs.length) :
    ((List.zipWith (fun p r => (⟨p.1, p.2, r⟩ : Obs)) s rs).map Obs.rank).sum
      = rs.sum := by
  induction s generalizing rs with
  | nil =>
    cases rs with
    | nil => simp
    | cons r rs' => simp at h
  | cons p s' ih =>
    cases rs with
    | nil => simp at h
    | cons r rs' =>
      simp only [List.zipWith_cons_cons, List.map_cons, List.sum_cons]
      rw [ih rs' (by simpa using h)]

theorem zipWith_obs_label (s : List (ℚ × ℕ)) (rs : List ℚ) (o : Obs)
    (ho : o ∈ List.zipWith (fun p r => (⟨p.1, p.2, r⟩ : Obs)) s rs) :
    ∃ p ∈ s, o.label = p.2 := by
  induction s generalizing rs with
  | nil => simp at ho
  | cons p s' ih =>
    cases rs with
    | nil => simp at ho
    | cons r rs' =>
      simp only [List.zipWith_cons_cons, List.mem_cons] at ho
      rcases ho with rfl | ho
      · exact ⟨p, List.mem_cons_self _ _, rfl⟩
      · rcases ih rs' ho with ⟨q, hq, he⟩
        exact ⟨q, List.mem_cons_of_mem _ hq, he⟩

/-- The ranked pair pool obeys the rank-sum invariant `N(N+1)/2`. -/
theorem rankPool_rank_sum (l : List (ℚ × ℕ)) :
    ((rankPool l).map Obs.rank).sum
      = (l.length : ℚ) * ((l.length : ℚ) + 1) / 2 := by
  rw [rankPool]
  have hslen : (l.insertionSort (fun p q => p.1 ≤ q.1)).length = l.length :=
    (List.perm_insertionSort _ l).length_eq
  have hrlen :
      ((assign_ranks ((l.insertionSort (fun p q => p.1 ≤ q.1)).map Prod.fst) 1).1).length
        = l.length := by
    rw [assign_ranks_length, List.length_map, hslen]
  rw [zipWith_obs_rank_sum _ _ (by rw [hslen, hrlen])]
  rw [assign_ranks_sum, List.length_map, hslen]
  push_cast
  ring

theorem rankPool_labels (l : List (ℚ × ℕ)) (P : ℕ → Prop) (hP : ∀ p ∈ l, P p.2) :
    ∀ o ∈ rankPool l, P o.label := by
  intro o ho
  rw [rankPool] at ho
  rcases zipWith_obs_label _ _ o ho with ⟨p, hp, he⟩
  rw [he]
  exact hP p ((List.perm_insertionSort _ l).mem_iff.mp hp)

/-- When every label of the pool is `a` or `b` (with `a ≠ b`), the two
per-sample rank sums add up to the total rank sum. -/
theorem sum_of_ranks_split (d : List Obs) (a b : ℕ) (hab : a ≠ b)
    (hl : ∀ o ∈ d, o.label = a ∨ o.label = b) :
    sum_of_ranks d a + sum_of_ranks d b = (d.map Obs.rank).sum := by
  induction d with
  | nil => simp [sum_of_ranks]
  | cons o d' ih =>
    have ho := hl o (List.mem_cons_self _ _)
    have ih' := ih (fun x hx => hl x (List.mem_cons_of_mem _ hx))
    simp only [sum_of_ranks, List.map_cons, List.sum_cons] at ih' ⊢
    rcases ho with h | h
    · rw [if_pos h, if_neg (by rw [h]; exact hab)]
      linarith [ih']
    · rw [if_neg (by rw [h]; exact fun hc => hab hc.symm), if_pos h]
      linarith [ih']

/-- C6: for a Mann-Whitney pair `(a, b)` over the combined re-ranked pool,
if the mean ranks agree (`R_a/n_a = R_b/n_b`) then the exactly-zero
numerator short-circuits `corrected_Tvalue` to exactly 0, skipping the
division by the square root of the denominator. -/
theorem c6_degenerate_zero (va vb : List ℚ) (a b : ℕ) (hab : a ≠ b)
    (ha : va ≠ []) (hb : vb ≠ [])
    (h : sum_of_ranks (rankPool (va.map (fun v => (v, a)) ++ vb.map (fun v => (v, b)))) a
          / (va.length : ℚ)
        = sum_of_ranks (rankPool (va.map (fun v => (v, a)) ++ vb.map (fun v => (v, b)))) b
          / (vb.length : ℚ)) :
    corrected_Tvalue (rankPool (va.map (fun v => (v, a)) ++ vb.map (fun v => (v, b))))
      va.length vb.length (va.length + vb.length) a = 0 := by
  set l := va.map (fun v => (v, a)) ++ vb.map (fun v => (v, b)) with hldef
  set d := rankPool l with hddef
  have hlen : l.length = va.length + vb.length := by
    simp [hldef]
  have hlab : ∀ o ∈ d, o.label = a ∨ o.label = b := by
    rw [hddef]
    refine rankPool_labels l (fun x => x = a ∨ x = b) ?_
    intro p hp
    rcases List.mem_append.mp hp with h' | h'
    · rcases List.mem_map.mp h' with ⟨v, -, rfl⟩
      exact Or.inl rfl
    · rcases List.mem_map.mp h' with ⟨v, -, rfl⟩
      exact Or.inr rfl
  have hsum := sum_of_ranks_split d a b hab hlab
  have hrank := rankPool_rank_sum l
  rw [hlen] at hrank
  have hn : (0 : ℚ) < (va.length : ℚ) := by
    exact_mod_cast List.length_pos.mpr ha
  have hm : (0 : ℚ) < (vb.length : ℚ) := by
    exact_mod_cast List.length_pos.mpr hb
  have hclear : sum_of_ranks d a * (vb.length : ℚ)
      = sum_of_ranks d b * (va.length : ℚ) := by
    field_simp at h
    linarith [h]
  have hkey : sum_of_ranks d a * ((va.length : ℚ) + (vb.length : ℚ))
      = (va.length : ℚ) * (sum_of_ranks d a + sum_of_ranks d b) := by
    linear_combination hclear
  have htot : sum_of_ranks d a + sum_of_ranks d b
      = ((va.length : ℚ) + (vb.length : ℚ))
          * (((va.length : ℚ) + (vb.length : ℚ)) + 1) / 2 := by
    rw [hsum, hrank]
    push_cast
    ring
  have hNpos : (0 : ℚ) < (va.length : ℚ) + (vb.length : ℚ) := by linarith
  have h2 : sum_of_ranks d a * ((va.length : ℚ) + (vb.length : ℚ))
      = ((va.length : ℚ) * (((va.length : ℚ) + (vb.length : ℚ)) + 1) / 2)
          * ((va.length : ℚ) + (vb.length : ℚ)) := by
    rw [hkey, htot]
    ring
  have h3 : sum_of_ranks d a
      = (va.length : ℚ) * (((va.length : ℚ) + (vb.length : ℚ)) + 1) / 2 :=
    mul_right_cancel₀ (ne_of_gt hNpos) h2
  simp only [corrected_Tvalue]
  split_ifs with hcond
  · rfl
  · exact absurd (by push_cast; linear_combination h3) hcond

/-- Witness for C6 at the concrete pair `va = vb = [1]` (labels 0 and 1):
both mean ranks are `3/2`, so the statistic is exactly 0. -/
theorem c6_degenerate_zero_witness :
    (0 : ℕ) ≠ 1 ∧ [(1 : ℚ)] ≠ ([] : List ℚ)
    ∧ sum_of_ranks (rankPool (([(1 : ℚ)]).map (fun v => (v, 0))
          ++ ([(1 : ℚ)]).map (fun v => (v, 1)))) 0 / (([(1 : ℚ)]).length : ℚ)
        = sum_of_ranks (rankPool (([(1 : ℚ)]).map (fun v => (v, 0))
          ++ ([(1 : ℚ)]).map (fun v => (v, 1)))) 1 / (([(1 : ℚ)]).length : ℚ)
    ∧ corrected_Tvalue (rankPool (([(1 : ℚ)]).map (fun v => (v, 0))
          ++ ([(1 : ℚ)]).map (fun v => (v, 1)))) ([(1 : ℚ)]).length ([(1 : ℚ)]).length
        (([(1 : ℚ)]).length + ([(1 : ℚ)]).length) 0 = 0 := by
  have hab : (0 : ℕ) ≠ 1 := by norm_num
  have ha : [(1 : ℚ)] ≠ ([] : List ℚ) := by simp
  have hh : sum_of_ranks (rankPool (([(1 : ℚ)]).map (fun v => (v, 0))
        ++ ([(1 : ℚ)]).map (fun v => (v, 1)))) 0 / (([(1 : ℚ)]).length : ℚ)
      = sum_of_ranks (rankPool (([(1 : ℚ)]).map (fun v => (v, 0))
        ++ ([(1 : ℚ)]).map (fun v => (v, 1)))) 1 / (([(1 : ℚ)]).length : ℚ) := by
    norm_num [rankPool, sum_of_ranks, assign_ranks, assignRanksLoop, countRun,
      List.insertionSort, List.orderedInsert, Finset.sum_range_succ,
      List.replicate, List.zipWith]
  exact ⟨hab, ha, hh, c6_degenerate_zero [(1 : ℚ)] [(1 : ℚ)] 0 1 hab ha ha hh⟩

/-- Model of `read_file`: input lines are already classified (`some v` when
`sscanf(line, "%lf", &number)` succeeds, `Option.none` for a blank or
unparseable line — string tokenizing is out of scope).  `clabel` is
incremented at EVERY unparseable line and stamped on each parsed value. -/
def read_file : List (Option ℚ) → ℕ → List (ℚ × ℕ)
  | [], _ => []
  | Option.none :: rest, clabel => read_file rest (clabel + 1)
  | some v :: rest, clabel => (v, clabel) :: read_file rest clabel

/-- The `no_runs` counting of `check_file`: a numeric line seen while
`new_run` is set opens a new sample block. -/
def count_runs : List (Option ℚ) → Bool → ℕ
  | [], _ => 0
  | Option.none :: rest, _ => count_runs rest true
  | some _ :: rest, newRun => (if newRun then 1 else 0) + count_runs rest false

/-- The sample blocks in file order (their lengths are `check_file`'s
`Nsamp` array): consecutive numeric lines accumulate, separators split. -/
def blocksOf : List (Option ℚ) → List (List ℚ)
  | [] => []
  | Option.none :: rest => blocksOf rest
  | some v :: rest =>
    match rest, blocksOf rest with
    | some _ :: _, b :: bs => (v :: b) :: bs
    | _, bs => [v] :: bs

/-- C7 (the code as it is): for the input file `[blank, "1"]` the single
observation gets label 1 from `read_file`'s separator counter, while
`check_file` counts a single block — whose 0-based position is 0.  The
assigned label is thus not the block's position among the counted blocks
(every label lies outside `{0, …, k−1}`), refuting the claim's statement
that leading blank lines do not shift labels. -/
theorem c7_label_shift :
    (read_file [Option.none, some (1 : ℚ)] 0).map Prod.snd = [1]
    ∧ count_runs [Option.none, some (1 : ℚ)] true = 1
    ∧ ∀ lbl ∈ (read_file [Option.none, some (1 : ℚ)] 0).map Prod.snd,
        ¬ lbl < count_runs [Option.none, some (1 : ℚ)] true := by
  refine ⟨rfl, rfl, ?_⟩
  intro lbl hl
  simp only [read_file, List.map_cons, List.map_nil, List.mem_singleton] at hl
  subst hl
  decide

/-- One Mann-Whitney output line for the ordered pair `(j, k)`: the pair
pool is rebuilt from the flat value list using the `Nsamp` offsets
(`start = Σ_{i<j} Nsamp[i]`), relabelled, sorted and re-ranked; the
reported value is `1 - Φ(T1)` printed as
`"%d better than %d with a p-value of  %.9g"`. -/
noncomputable def mwLine (Z : ℝ → ℝ) (fmt : ℝ → String) (vals : List ℚ)
    (Nsamp : List ℕ) (j k : ℕ) : String :=
  let n := Nsamp.getD j 0
  let m := Nsamp.getD k 0
  let poolJ := ((vals.drop ((Nsamp.take j).sum)).take n).map (fun v => (v, j))
  let poolK := ((vals.drop ((Nsamp.take k).sum)).take m).map (fun v => (v, k))
  let T := corrected_Tvalue (rankPool (poolJ ++ poolK)) n m (n + m) j
  let pv := 1 - Z T
  toString (k + 1) ++ " better than " ++ toString (j + 1)
    ++ " with a p-value of  " ++ fmt pv

/-- Model of `mann-whit.cc` `main` after the files are readable:
`check_file` aborts (exit 1, diagnostic on stderr) only when the number of
blocks exceeds `MAX_DISTS = 30`; otherwise the double loop emits one line
per ordered pair `(j, k)` with `j ≠ k` and the process exits 0.
`Except.error` is exit code 1 with its diagnostic, `Except.ok` is exit
code 0 with the output lines. -/
noncomputable def mwMain (Z : ℝ → ℝ) (fmt : ℝ → String)
    (lines : List (Option ℚ)) : Except String (List String) :=
  let bs := blocksOf lines
  if 30 < bs.length then
    Except.error "Please edit MAX_DISTS. Number of sample distributions exceeded the current setting."
  else
    let Nsamp := bs.map List.length
    let vals := (read_file lines 0).map Prod.fst
    Except.ok ((List.range bs.length).flatMap (fun j =>
      ((List.range bs.length).filter (fun k => decide (¬ j = k))).map (fun k =>
        mwLine Z fmt vals Nsamp j k)))

/-- C8 (amended): the Mann-Whitney tool has no minimum-block check — with
fewer than 2 sample blocks the pair loop body never runs, so the run exits
0 and writes an empty output file instead of failing. -/
theorem c8_no_min_check (Z : ℝ → ℝ) (fmt : ℝ → String) (lines : List (Option ℚ))
    (h : (blocksOf lines).length ≤ 1) :
    mwMain Z fmt lines = Except.ok [] := by
  simp only [mwMain]
  rw [if_neg (by omega)]
  rcases Nat.le_one_iff_eq_zero_or_eq_one.mp h with h0 | h1
  · rw [h0]
    simp
  · rw [h1]
    simp

/-- C8 counterexample: an indicator file with a single sample block
(one numeric line).  The modelled run terminates with exit code 0 and an
empty output, not with exit code 1 and a diagnostic as the claim states. -/
theorem c8_counterexample :
    mwMain (fun _ => (0 : ℝ)) (fun _ => "") [some (1 : ℚ)] = Except.ok [] :=
  rfl

/-- Witness for C8's amended statement at the empty input file. -/
theorem c8_no_min_check_witness :
    (blocksOf ([] : List (Option ℚ))).length ≤ 1
    ∧ mwMain (fun _ => (0 : ℝ)) (fun _ => "x") ([] : List (Option ℚ))
        = Except.ok [] := by
  have h : (blocksOf ([] : List (Option ℚ))).length ≤ 1 := by decide
  exact ⟨h, c8_no_min_check _ _ _ h⟩
